import Mathlib

/-!
Verification development for the grit terminal client: a shallow embedding of
the branch-tree parser (`internal/gt/parse.go`), the display linearizer
(`internal/ui/treeview.go`), the diff-stat parser (`internal/ui/diffview.go`)
and the session state machine (`internal/ui` model), together with proofs of
the specified properties.

Strings are embedded as `List Char` (Go iterates runes; all patterns involved
are ASCII, so byte indices in the Go code always fall on rune boundaries and
the char-level model is faithful).
-/

namespace Grit

/-! ### Go `strings` helpers -/

/-- Whitespace test used by Go `strings.TrimSpace` (ASCII whitespace; the
inputs at hand contain no exotic Unicode space). -/
def isSpaceChar (c : Char) : Bool :=
  c = ' ' || c = '\t' || c = '\n' || c = '\r' || c = '\x0b' || c = '\x0c'

/-- Go `strings.TrimSpace`: drop leading and trailing whitespace. -/
def trimSpace (s : List Char) : List Char :=
  ((s.dropWhile isSpaceChar).reverse.dropWhile isSpaceChar).reverse

/-- Does `pat` occur in `s` starting at position `i`? -/
def matchesAt (s pat : List Char) (i : Nat) : Bool :=
  (s.drop i).take pat.length = pat

/-- Go `strings.Contains s pat`. -/
def containsSub (s pat : List Char) : Bool :=
  (List.range (s.length + 1)).any (matchesAt s pat)

/-- Go `strings.LastIndex s pat` (as an `Option` instead of `-1`). -/
def lastIndexSub (s pat : List Char) : Option Nat :=
  ((List.range (s.length + 1)).filter (matchesAt s pat)).getLast?

/-- Go `strings.HasSuffix s (string-of-one-char c)`. -/
def hasSuffixCh (s : List Char) (c : Char) : Bool :=
  s.getLast? = some c

/-- Go `strings.SplitN s sep 2` for a one-char separator: the text before the
first occurrence and the text after it, or `none` when absent. -/
def splitFirst (sep : Char) (s : List Char) : Option (List Char × List Char) :=
  match s.findIdx? (· = sep) with
  | none => none
  | some i => some (s.take i, s.drop (i + 1))

/-! ### `extractAnnotation` (internal/gt/parse.go)

Go source:
```
func extractAnnotation(name string) (string, string) {
    if idx := strings.LastIndex(name, " ("); idx != -1 && strings.HasSuffix(name, ")") {
        annotation := name[idx+2 : len(name)-1]
        return name[:idx], annotation
    }
    return name, ""
}
```
-/

def extractAnnot (name : List Char) : List Char × List Char :=
  match lastIndexSub name [' ', '('] with
  | some idx =>
      if hasSuffixCh name ')' then
        (name.take idx, (name.drop (idx + 2)).dropLast)
      else (name, [])
  | none => (name, [])

/-! ### `parseDiffStat` (internal/ui/diffview.go) -/

structure DiffFileEntry where
  path : List Char
  summary : List Char
  deriving DecidableEq, Repr

/-- One iteration of the loop body of `parseDiffStat` in diffview.go:
trim the line; skip blank lines, the `git diff --stat` total line
(detected by the substrings "file changed" / "files changed"), and lines
without a `|` separator or with an empty path before it. -/
def processDiffLine (line : List Char) : Option DiffFileEntry :=
  let l := trimSpace line
  if l = [] then none
  else if containsSub l ("file changed".data) || containsSub l ("files changed".data) then none
  else
    match splitFirst '|' l with
    | none => none
    | some parts =>
        let path := trimSpace parts.1
        let summary := trimSpace parts.2
        if path = [] then none else some ⟨path, summary⟩

/-- `parseDiffStat`: split on newlines, process each line, keep the hits. -/
def parseDiffStat (output : List Char) : List DiffFileEntry :=
  (output.splitOn '\n').filterMap processDiffLine

/-- The trimmed text before the first `|` of the trimmed line (empty when the
line has no `|`). -/
def beforePipe (line : List Char) : List Char :=
  match splitFirst '|' (trimSpace line) with
  | none => []
  | some parts => parts.1

/-! ### `parseLine` (internal/gt/parse.go) -/

def currentMarker : Char := '◉'

def otherMarker : Char := '◯'

/-- The marker scan of Go `parseLine`: walk the runes left to right until the
first `◉` or `◯`; return its rune column, whether it is the current-branch
marker, and the rest of the line after the marker. -/
def findMarker : List Char → Nat → Option (Nat × Bool × List Char)
  | [], _ => none
  | c :: rest, pos =>
      if c = currentMarker then some (pos, true, rest)
      else if c = otherMarker then some (pos, false, rest)
      else findMarker rest (pos + 1)

/-- Go `stripConnectors`: remove the tree-drawing characters. -/
def stripConnectors (s : List Char) : List Char :=
  s.filter (fun r => !(r = '─' || r = '┘' || r = '│'))

structure ParsedLine where
  name : List Char
  depth : Nat
  isCurrent : Bool
  annot : List Char
  deriving DecidableEq, Repr

/-- Go `parseLine`: find the marker, derive depth from its rune column
(integer division by 2), strip connectors, trim, split off a trailing
annotation, and reject empty names. -/
def parseLine (line : List Char) : Option ParsedLine :=
  match findMarker line 0 with
  | none => none
  | some (runePos, isCur, rest) =>
      let depth := runePos / 2
      let na := extractAnnot (trimSpace (stripConnectors rest))
      if na.1 = [] then none
      else some ⟨na.1, depth, isCur, na.2⟩

/-! ### `ParseLogShort` (internal/gt/parse.go)

The Go code builds the tree by mutating `*Branch` pointers through a
`parentAtDepth` map.  The embedding first records, for every parsed line (in
post-reversal order), the index of the parent it is attached to — `none` for
the root and for lines whose `parentAtDepth` lookup misses — and then builds
the `Branch` tree from those parent indices; children keep their attachment
(index) order, exactly as the Go `append` calls produce them. -/

structure CEntry where
  pl : ParsedLine
  parent : Option Nat
  deriving DecidableEq, Repr

/-- `parentAtDepth` lookup (`parent, ok := parentAtDepth[d]`). -/
def mapLookup (m : List (Nat × Nat)) (k : Nat) : Option Nat :=
  match m.find? (fun e => e.1 = k) with
  | none => none
  | some e => some e.2

/-- `parentAtDepth[k] = v`. -/
def mapInsert (m : List (Nat × Nat)) (k v : Nat) : List (Nat × Nat) :=
  (k, v) :: m.filter (fun e => !(e.1 = k))

/-- `for d := lo; d <= hi; d++ { delete(parentAtDepth, d) }`. -/
def mapEraseRange (m : List (Nat × Nat)) (lo hi : Nat) : List (Nat × Nat) :=
  m.filter (fun e => !(lo ≤ e.1 && e.1 ≤ hi))

structure BuildState where
  entries : List CEntry
  tips : List (Nat × Nat)
  prevDepth : Nat
  deriving Repr

/-- The loop body of the tree-construction loop in `ParseLogShort` (the
tip-at-depth switch), for the parsed line `p`; the new node's index is the
current number of entries. -/
def stepBuild (st : BuildState) (p : ParsedLine) : BuildState :=
  if p.depth = 0 then
    { entries := st.entries ++ [⟨p, some 0⟩],
      tips := mapInsert st.tips 0 st.entries.length,
      prevDepth := p.depth }
  else if p.depth = st.prevDepth then
    { entries := st.entries ++ [⟨p, mapLookup st.tips p.depth⟩],
      tips := mapInsert st.tips p.depth st.entries.length,
      prevDepth := p.depth }
  else if st.prevDepth < p.depth then
    { entries := st.entries ++ [⟨p, mapLookup st.tips (p.depth - 1)⟩],
      tips := mapInsert st.tips p.depth st.entries.length,
      prevDepth := p.depth }
  else
    { entries := st.entries
        ++ [⟨p, mapLookup (mapEraseRange st.tips (p.depth + 1) st.prevDepth) (p.depth - 1)⟩],
      tips := mapInsert (mapEraseRange st.tips (p.depth + 1) st.prevDepth)
        p.depth st.entries.length,
      prevDepth := p.depth }

/-- The state before the loop: the first (post-reversal) line is the root,
registered as the tip at its own depth. -/
def initState (p0 : ParsedLine) : BuildState :=
  { entries := [⟨p0, none⟩], tips := [(p0.depth, 0)], prevDepth := p0.depth }

def buildEntries : List ParsedLine → List CEntry
  | [] => []
  | p0 :: rest => (rest.foldl stepBuild (initState p0)).entries

/-- `Branch` of internal/gt/parse.go.  The `depth` and `order` fields are
modelled from the spec (§3, §4.1): the src revision of parse.go predates
them, while treeview.go already reads `b.Depth` and `b.Order`; per the spec,
`depth` is the parsed line's nesting level (marker rune column divided by 2)
and `order` is the line's original pre-reversal index in the snapshot. -/
structure Branch where
  name : List Char
  isCurrent : Bool
  annot : List Char
  depth : Nat
  order : Nat
  children : List Branch
  deriving Repr

/-- Indices of the entries attached to entry `i`, in attachment order. -/
def childIdxs (es : List CEntry) (i : Nat) : List Nat :=
  (List.range es.length).filter
    (fun j => decide ((es.get? j).map CEntry.parent = some (some i)))

/-- Build the `Branch` rooted at entry `i`; `n` is the total number of parsed
lines (so entry `i` carries `order = n - 1 - i`, its pre-reversal line
index).  The fuel argument only serves termination: children always have
strictly larger indices, so fuel `n` never runs out from the root. -/
def buildNode (es : List CEntry) (n : Nat) : Nat → Nat → Branch
  | 0, _ => ⟨[], false, [], 0, 0, []⟩
  | fuel + 1, i =>
      match es.get? i with
      | none => ⟨[], false, [], 0, 0, []⟩
      | some e =>
          ⟨e.pl.name, e.pl.isCurrent, e.pl.annot, e.pl.depth, n - 1 - i,
           (childIdxs es i).map (fun j => buildNode es n fuel j)⟩

/-- The parsed lines of a snapshot in their original (pre-reversal) order. -/
def parsedLinesPre (output : List Char) : List ParsedLine :=
  (output.splitOn '\n').filterMap parseLine

/-- The parsed lines after the reversal performed by `ParseLogShort`
(trunk first). -/
def parsedLinesRev (output : List Char) : List ParsedLine :=
  (parsedLinesPre output).reverse

/-- `ParseLogShort`: parse every line, reverse, build the tree; the returned
forest is the singleton root (or empty for empty/filler-only input). -/
def ParseLogShort (output : List Char) : List Branch :=
  match parsedLinesRev output with
  | [] => []
  | p0 :: rest =>
      let es := buildEntries (p0 :: rest)
      [buildNode es es.length es.length 0]

theorem sizeOf_children_lt (b : Branch) : sizeOf b.children < sizeOf b := by
  rcases b with ⟨a, c, d, e, f, cs⟩
  simp

/-! ### `FindParent` (internal/gt/parse.go) -/

mutual

/-- Go `findParentRecursive`, returning the parent name when `name` occurs
among the descendants of `node`. -/
def findParentRec (node : Branch) (name : List Char) : Option (List Char) :=
  findParentIn node.name node.children name
termination_by sizeOf node
decreasing_by
  exact sizeOf_children_lt node

def findParentIn (parentName : List Char) (cs : List Branch) (name : List Char) :
    Option (List Char) :=
  match cs with
  | [] => none
  | c :: rest =>
      if c.name = name then some parentName
      else
        match findParentRec c name with
        | some p => some p
        | none => findParentIn parentName rest name
termination_by sizeOf cs

end

/-- Go `FindParent`: search each root in turn. -/
def FindParent (branches : List Branch) (name : List Char) : Option (List Char) :=
  match branches with
  | [] => none
  | root :: rest =>
      match findParentRec root name with
      | some p => some p
      | none => FindParent rest name

/-! ### Display linearizer (internal/ui/treeview.go) -/

structure DisplayEntry where
  branch : Branch
  depth : Nat

/-- Go `collectAll`: preorder collection of every branch paired with its
visual depth (`b.Depth`). -/
def collectAll : List Branch → List DisplayEntry
  | [] => []
  | b :: rest => ⟨b, b.depth⟩ :: (collectAll b.children ++ collectAll rest)
termination_by l => sizeOf l
decreasing_by
  all_goals first
    | (apply Nat.lt_of_lt_of_le (sizeOf_children_lt _); simp; omega)
    | simp

/-- The comparison of Go `flattenForDisplay`'s `sort.Slice` call, as a total
order. -/
def leOrder (a b : DisplayEntry) : Bool :=
  a.branch.order ≤ b.branch.order

/-- Go `flattenForDisplay`: collect all branches and sort them by `Order`.
(`sort.Slice` is an unstable sort on the strict `Order <` comparison; on the
distinct keys produced by parsing, sorting by `≤` yields the same list.) -/
def flattenForDisplay (branches : List Branch) : List DisplayEntry :=
  (collectAll branches).mergeSort leOrder

/-! ### Session state machine (internal/ui model)

The embedding covers the event-handling logic of `Model.Update`: view modes,
the running lock, cursor movement, the guarded action dispatches, the
debounced reload, and the commands (asynchronous effects) each event emits.
Purely cosmetic state is out of scope: the `viewport` is omitted because its
key map is zeroed at creation (`m.viewport.KeyMap = viewport.KeyMap{}`), so
`viewport.Update` never changes it on the key events modelled here, and its
content is a pure render of the modelled state. -/

inductive ViewMode
  | tree
  | diff
  | help
  deriving DecidableEq, Repr

inductive DiffPanel
  | fileList
  | diffContent
  deriving DecidableEq, Repr

/-- The keys of `defaultKeyMap` (internal/ui/keys.go) plus the help key the
model handles; `quit` covers both `q` and `ctrl+c`, and `other` stands for
any key matching no binding. -/
inductive Key
  | up
  | down
  | checkout
  | trunk
  | stackSubmit
  | downstackSubmit
  | restack
  | fetch
  | sync
  | openPR
  | diff
  | help
  | escape
  | tab
  | quit
  | other
  deriving DecidableEq, Repr

/-- The messages `Model.Update` handles (the subset the claims concern). -/
inductive Msg
  | key (k : Key)
  | actionResult (action : List Char) (err : Option (List Char)) (message : List Char)
  | gitChange
  | debounceFire (seq : Nat)
  deriving DecidableEq, Repr

/-- The asynchronous effects (`tea.Cmd`s) `Model.Update` can emit.  `action`
is a `runAction` dispatch of an external `gt` subprocess; `loadDiffData` and
`loadDiffFile` start `git diff` subprocesses; `tick` is the debounce timer
that will deliver `Msg.debounceFire` with the recorded tag. -/
inductive Cmd
  | quit
  | loadLog
  | action (name : List Char) (target : List Char)
  | spinnerTick
  | loadDiffData (parent branch : List Char)
  | loadDiffFile (parent branch file : List Char)
  | tick (ms : Nat) (tag : Nat)
  | waitForChange
  deriving DecidableEq, Repr

/-- internal/ui status bar: the fields observable through the claims. -/
structure StatusBar where
  message : List Char
  isError : Bool
  isSuccess : Bool
  spinning : Bool
  spinnerLabel : List Char
  deriving DecidableEq, Repr

def StatusBar.setMessage (s : StatusBar) (msg : List Char) (isErr : Bool) : StatusBar :=
  { s with message := msg, isError := isErr }

/-- Modelled from the spec: the success-path status setter the model calls
(`setSuccessMessage`) is absent from the statusbar revision in src; per the
spec's visible-status contract and the model tests, it records the message
with the success style and no error. -/
def StatusBar.setSuccessMessage (s : StatusBar) (msg : List Char) : StatusBar :=
  { s with message := msg, isError := false, isSuccess := true }

def StatusBar.startSpinner (s : StatusBar) (label : List Char) : StatusBar :=
  { s with spinning := true, spinnerLabel := label }

def StatusBar.stopSpinner (s : StatusBar) : StatusBar :=
  { s with spinning := false, spinnerLabel := [] }

/-- Diff-view sub-state (internal/ui/diffview.go), as far as the model
transitions touch it. -/
structure DiffViewState where
  branchName : List Char
  parentBranch : List Char
  files : List DiffFileEntry
  fileCursor : Nat
  focusedPanel : DiffPanel
  deriving DecidableEq, Repr

def emptyDiffView : DiffViewState := ⟨[], [], [], 0, DiffPanel.fileList⟩

/-- The session model (`Model` of the internal/ui package). -/
structure Model where
  branches : List Branch
  displayEntries : List DisplayEntry
  cursor : Nat
  running : Bool
  mode : ViewMode
  debounceSeq : Nat
  statusBar : StatusBar
  diffState : DiffViewState

/-- `Model.selectedBranch`: the display entry under the cursor, if any
(the Go cursor is an `int` that is never driven negative). -/
def Model.selectedBranch (m : Model) : Option Branch :=
  (m.displayEntries.get? m.cursor).map DisplayEntry.branch

/-- `Model.preserveCursor`: search the new display list by the old branch
name first, fall back to the `IsCurrent` entry, then to index 0. -/
def preserveCursor (oldBranchName : List Char) (entries : List DisplayEntry) : Nat :=
  match (if oldBranchName = [] then none
         else entries.findIdx? (fun e => e.branch.name = oldBranchName)) with
  | some i => i
  | none =>
      match entries.findIdx? (fun e => e.branch.isCurrent) with
      | some i => i
      | none => 0

/-- `debounceDuration` (300 ms). -/
def debounceDuration : Nat := 300

/-- Tree-mode key dispatch: the `switch` at the end of the `tea.KeyMsg` case
of `Model.Update` (src/unnamed/part_004), in source order. -/
def treeKey (m : Model) (k : Key) : Model × List Cmd :=
  match k with
  | Key.up =>
      if 0 < m.cursor then ({ m with cursor := m.cursor - 1 }, []) else (m, [])
  | Key.down =>
      if m.cursor + 1 < m.displayEntries.length then
        ({ m with cursor := m.cursor + 1 }, [])
      else (m, [])
  | Key.checkout =>
      match m.selectedBranch with
      | none => (m, [])
      | some b =>
          ({ m with running := true,
                    statusBar := m.statusBar.startSpinner
                      ("Checking out ".data ++ b.name ++ "...".data) },
           [Cmd.spinnerTick, Cmd.action ("checkout".data) b.name])
  | Key.trunk =>
      match m.branches with
      | [] => (m, [])
      | root :: _ =>
          ({ m with running := true,
                    statusBar := m.statusBar.startSpinner
                      ("Checking out ".data ++ root.name ++ "...".data) },
           [Cmd.spinnerTick, Cmd.action ("checkout".data) root.name])
  | Key.stackSubmit =>
      match m.selectedBranch with
      | none => (m, [])
      | some b =>
          ({ m with running := true,
                    statusBar := m.statusBar.startSpinner
                      ("Submitting stack (".data ++ b.name ++ ")...".data) },
           [Cmd.spinnerTick, Cmd.action ("submit".data) b.name])
  | Key.downstackSubmit =>
      match m.selectedBranch with
      | none => (m, [])
      | some b =>
          ({ m with running := true,
                    statusBar := m.statusBar.startSpinner
                      ("Submitting downstack (".data ++ b.name ++ ")...".data) },
           [Cmd.spinnerTick, Cmd.action ("downstack-submit".data) b.name])
  | Key.restack =>
      match m.selectedBranch with
      | none => (m, [])
      | some b =>
          ({ m with running := true,
                    statusBar := m.statusBar.startSpinner
                      ("Restacking (".data ++ b.name ++ ")...".data) },
           [Cmd.spinnerTick, Cmd.action ("restack".data) b.name])
  | Key.fetch =>
      ({ m with running := true,
                statusBar := m.statusBar.startSpinner ("Fetching...".data) },
       [Cmd.spinnerTick, Cmd.action ("fetch".data) []])
  | Key.sync =>
      ({ m with running := true,
                statusBar := m.statusBar.startSpinner ("Syncing...".data) },
       [Cmd.spinnerTick, Cmd.action ("sync".data) []])
  | Key.openPR =>
      match m.selectedBranch with
      | none => (m, [])
      | some b =>
          ({ m with running := true,
                    statusBar := m.statusBar.startSpinner
                      ("Opening PR (".data ++ b.name ++ ")...".data) },
           [Cmd.spinnerTick, Cmd.action ("openpr".data) b.name])
  | Key.diff =>
      match m.selectedBranch with
      | none => (m, [])
      | some b =>
          match FindParent m.branches b.name with
          | none =>
              ({ m with statusBar :=
                   m.statusBar.setMessage ("No parent branch for ".data ++ b.name) true },
               [])
          | some parent =>
              ({ m with running := true,
                        statusBar := m.statusBar.startSpinner
                          ("Loading diff for ".data ++ b.name ++ "...".data) },
               [Cmd.spinnerTick, Cmd.loadDiffData parent b.name])
  | Key.help => ({ m with mode := ViewMode.help }, [])
  | _ => (m, [])

/-- Help-mode key handling: `?` or escape returns to the tree. -/
def helpKey (m : Model) (k : Key) : Model × List Cmd :=
  if k = Key.help ∨ k = Key.escape then ({ m with mode := ViewMode.tree }, [])
  else (m, [])

/-- Diff-mode key handling (close, tab, cursor moves). -/
def diffKey (m : Model) (k : Key) : Model × List Cmd :=
  match k with
  | Key.diff => ({ m with mode := ViewMode.tree, diffState := emptyDiffView }, [])
  | Key.escape => ({ m with mode := ViewMode.tree, diffState := emptyDiffView }, [])
  | Key.tab =>
      if m.diffState.focusedPanel = DiffPanel.fileList then
        ({ m with diffState := { m.diffState with focusedPanel := DiffPanel.diffContent } }, [])
      else
        ({ m with diffState := { m.diffState with focusedPanel := DiffPanel.fileList } }, [])
  | Key.up =>
      if m.diffState.focusedPanel = DiffPanel.fileList then
        if 0 < m.diffState.fileCursor then
          let cur := m.diffState.fileCursor - 1
          let file := ((m.diffState.files.get? cur).map DiffFileEntry.path).getD []
          ({ m with diffState := { m.diffState with fileCursor := cur } },
           [Cmd.loadDiffFile m.diffState.parentBranch m.diffState.branchName file])
        else (m, [])
      else (m, [])
  | Key.down =>
      if m.diffState.focusedPanel = DiffPanel.fileList then
        if m.diffState.fileCursor + 1 < m.diffState.files.length then
          let cur := m.diffState.fileCursor + 1
          let file := ((m.diffState.files.get? cur).map DiffFileEntry.path).getD []
          ({ m with diffState := { m.diffState with fileCursor := cur } },
           [Cmd.loadDiffFile m.diffState.parentBranch m.diffState.branchName file])
        else (m, [])
      else (m, [])
  | _ => (m, [])

/-- `Model.Update` (src/unnamed/part_004), restricted to the modelled
messages.  The key path is: quit first, then the running-lock guard, then
help-mode / diff-mode handling, then the tree-mode switch. -/
def Update (m : Model) (msg : Msg) : Model × List Cmd :=
  match msg with
  | Msg.key k =>
      if k = Key.quit then (m, [Cmd.quit])
      else if m.running then (m, [])
      else
        match m.mode with
        | ViewMode.help => helpKey m k
        | ViewMode.diff => diffKey m k
        | ViewMode.tree => treeKey m k
  | Msg.actionResult act err message =>
      let m1 := { m with running := false, statusBar := m.statusBar.stopSpinner }
      match err with
      | some e =>
          ({ m1 with statusBar := m1.statusBar.setMessage ("Error: ".data ++ e) true }, [])
      | none =>
          ({ m1 with statusBar := m1.statusBar.setSuccessMessage message },
           if act = ("openpr".data) then [] else [Cmd.loadLog])
  | Msg.gitChange =>
      ({ m with debounceSeq := m.debounceSeq + 1 },
       [Cmd.tick debounceDuration (m.debounceSeq + 1), Cmd.waitForChange])
  | Msg.debounceFire seq =>
      if seq = m.debounceSeq then (m, [Cmd.loadLog]) else (m, [])

end Grit

namespace Grit

/-! ### Fixtures

The three-line snapshot used throughout the repository's own model tests:
`feature-top` (current) on `feature-base` on trunk `main`. -/

def chainInput : List Char := ("│ ◉  feature-top\n│ ◯  feature-base\n◯─┘  main").data

def chainForest : List Branch := ParseLogShort chainInput

def topB : Branch := ⟨("feature-top").data, true, [], 1, 0, []⟩

def baseB : Branch := ⟨("feature-base").data, false, [], 1, 1, [topB]⟩

def mainB : Branch := ⟨("main").data, false, [], 0, 2, [baseB]⟩

theorem chainForest_eq : chainForest = [mainB] := rfl

/-- A quiescent tree-mode session on the chain fixture, cursor on the trunk
(the display order puts the trunk at index 2). -/
def chainModel : Model :=
  { branches := chainForest,
    displayEntries := [⟨topB, 1⟩, ⟨baseB, 1⟩, ⟨mainB, 0⟩],
    cursor := 2,
    running := false,
    mode := ViewMode.tree,
    debounceSeq := 0,
    statusBar := ⟨[], false, false, false, []⟩,
    diffState := emptyDiffView }

end Grit

namespace Grit

/-- C1: the claim states that a stack-submit, downstack-submit or restack
request with the trunk selected is rejected with a visible message, no state
change and no subprocess dispatch.  The model in src/unnamed/part_004 has no
such guard: with the trunk (`main`) selected, each of the three keys takes
the running-lock, starts the spinner and dispatches the external action —
contradicting the repository's own tests (model_test.go:
TestSubmitOnTrunk_ShowsError, TestDownstackSubmitOnTrunk_ShowsError,
TestRestackOnTrunk_ShowsError), which require a "Cannot submit trunk" /
"Cannot restack trunk" error and no action.  This theorem evaluates the
embedded code at that failing input. -/
theorem claim_C1_trunk_mutation_dispatched :
    ((Update chainModel (Msg.key Key.stackSubmit)).1.running = true
      ∧ (Update chainModel (Msg.key Key.stackSubmit)).2
          = [Cmd.spinnerTick, Cmd.action ("submit".data) ("main".data)]
      ∧ (Update chainModel (Msg.key Key.stackSubmit)).1.statusBar.isError = false)
    ∧ ((Update chainModel (Msg.key Key.downstackSubmit)).1.running = true
      ∧ (Update chainModel (Msg.key Key.downstackSubmit)).2
          = [Cmd.spinnerTick, Cmd.action ("downstack-submit".data) ("main".data)])
    ∧ ((Update chainModel (Msg.key Key.restack)).1.running = true
      ∧ (Update chainModel (Msg.key Key.restack)).2
          = [Cmd.spinnerTick, Cmd.action ("restack".data) ("main".data)]) := by
  decide

/-- C2: the claim states that a failed restack still triggers a full reload.
In src/unnamed/part_004 the `actionResultMsg` case clears the lock and the
spinner and surfaces the error, but emits no reload command on any error —
contradicting the repository's own test (model_test.go:
TestActionResult_ErrorReloadsTree, which requires a reload command after a
failed restack).  This theorem evaluates the embedded code at that failing
input: the lock clears and the error is surfaced, but no `loadLog` is
dispatched. -/
def runningChainModel : Model :=
  { chainModel with running := true, statusBar := chainModel.statusBar.startSpinner ("Restacking (main)...".data) }

theorem claim_C2_restack_error_no_reload :
    ((Update runningChainModel
        (Msg.actionResult ("restack".data) (some ("exit status 1".data)) [])).1.running = false)
    ∧ ((Update runningChainModel
        (Msg.actionResult ("restack".data) (some ("exit status 1".data)) [])).1.statusBar.spinning
          = false)
    ∧ ((Update runningChainModel
        (Msg.actionResult ("restack".data) (some ("exit status 1".data)) [])).1.statusBar.message
          = ("Error: exit status 1".data))
    ∧ ((Update runningChainModel
        (Msg.actionResult ("restack".data) (some ("exit status 1".data)) [])).1.statusBar.isError
          = true)
    ∧ ((Update runningChainModel
        (Msg.actionResult ("restack".data) (some ("exit status 1".data)) [])).2 = []) := by
  decide

/-- C5: while the running-lock is held, every key event other than quit
leaves the session state unchanged and dispatches no command (the
`if m.running { break }` guard of Model.Update precedes all mode and action
handling; the viewport's key bindings are zeroed, so nothing else reacts). -/
theorem claim_C5_running_lock_no_op (m : Model) (k : Key)
    (hk : k ≠ Key.quit) (hr : m.running = true) :
    Update m (Msg.key k) = (m, []) := by
  simp [Update, hk, hr]

theorem claim_C5_witness :
    Key.down ≠ Key.quit
    ∧ Update { chainModel with running := true } (Msg.key Key.down)
        = ({ chainModel with running := true }, []) :=
  ⟨by decide,
   claim_C5_running_lock_no_op { chainModel with running := true } Key.down (by decide) rfl⟩

/-- Iterated filesystem-change events: `applyChanges m n` is the session
state after `n` consecutive `gitChangeMsg` events. -/
def applyChanges (m : Model) : Nat → Model
  | 0 => m
  | n + 1 => (Update (applyChanges m n) Msg.gitChange).1

/-- C8: each filesystem-change event increments the monotonic debounce
counter and schedules a 300 ms tick tagged with the new counter value; a
tick fires a reload exactly when its tag equals the current counter, so of
the tags scheduled by a burst of `n` consecutive changes only the last one
(tag `debounceSeq + n`) still fires afterwards. -/
theorem claim_C8_debounce (m : Model) (s n i : Nat)
    (_h1 : 1 ≤ i) (_h2 : i ≤ n) :
    debounceDuration = 300
    ∧ Update m Msg.gitChange
        = ({ m with debounceSeq := m.debounceSeq + 1 },
           [Cmd.tick debounceDuration (m.debounceSeq + 1), Cmd.waitForChange])
    ∧ (Update m (Msg.debounceFire s)).2 = (if s = m.debounceSeq then [Cmd.loadLog] else [])
    ∧ (Update m (Msg.debounceFire s)).1 = m
    ∧ (applyChanges m n).debounceSeq = m.debounceSeq + n
    ∧ (Update (applyChanges m n) (Msg.debounceFire (m.debounceSeq + i))).2
        = (if i = n then [Cmd.loadLog] else []) := by
  have hseq : ∀ j, (applyChanges m j).debounceSeq = m.debounceSeq + j := by
    intro j
    induction j with
    | zero => rfl
    | succ j ih => simp [applyChanges, Update, ih]; omega
  refine ⟨rfl, rfl, ?_, ?_, hseq n, ?_⟩
  · by_cases h : s = m.debounceSeq <;> simp [Update, h]
  · by_cases h : s = m.debounceSeq <;> simp [Update, h]
  · by_cases h : i = n
    · simp [Update, hseq n, h]
    · have : m.debounceSeq + i ≠ (applyChanges m n).debounceSeq := by
        rw [hseq n]; omega
      simp [Update, this, h]

theorem claim_C8_witness :
    1 ≤ 1 ∧ (1 : Nat) ≤ 3
    ∧ (Update (applyChanges chainModel 3) (Msg.debounceFire (chainModel.debounceSeq + 1))).2
        = [] := by
  refine ⟨by decide, by decide, ?_⟩
  have h := claim_C8_debounce chainModel 0 3 1 (by decide) (by decide)
  have h6 := h.2.2.2.2.2
  simpa using h6

end Grit

namespace Grit

/-- C7: after a reload the cursor is re-resolved with this exact priority:
the previously selected branch name, if still present (its first, i.e.
unique, occurrence); otherwise the first entry marked current; otherwise
index 0.  (An empty old name means nothing was selected before, so the name
search is skipped, as in the source.) -/
theorem claim_C7_preserve_cursor (oldName : List Char) (entries : List DisplayEntry) :
    (∀ i, oldName ≠ [] →
        (entries.get? i).map (fun e => e.branch.name) = some oldName →
        (∀ k, k < i → (entries.get? k).map (fun e => e.branch.name) ≠ some oldName) →
        preserveCursor oldName entries = i)
    ∧ (∀ j, (oldName = [] ∨ ∀ e ∈ entries, e.branch.name ≠ oldName) →
        (entries.get? j).map (fun e => e.branch.isCurrent) = some true →
        (∀ k, k < j → (entries.get? k).map (fun e => e.branch.isCurrent) = some false) →
        preserveCursor oldName entries = j)
    ∧ ((oldName = [] ∨ ∀ e ∈ entries, e.branch.name ≠ oldName) →
        (∀ e ∈ entries, e.branch.isCurrent = false) →
        preserveCursor oldName entries = 0) := by
  have hname : ∀ (_ : oldName = [] ∨ ∀ e ∈ entries, e.branch.name ≠ oldName),
      (if oldName = [] then none
       else entries.findIdx? (fun e => e.branch.name = oldName)) = none := by
    intro h
    rcases h with h | h
    · simp [h]
    · rcases Decidable.em (oldName = []) with he | he
      · simp [he]
      · rw [if_neg he, List.findIdx?_eq_none_iff]
        intro e he2
        simpa using h e he2
  refine ⟨?_, ?_, ?_⟩
  · intro i hold hi hfirst
    have hlen : i < entries.length := by
      rcases h2 : entries.get? i with _ | e
      · rw [h2] at hi; simp at hi
      · exact (List.get?_eq_some.mp h2).1
    have hfind : entries.findIdx? (fun e => e.branch.name = oldName) = some i := by
      rw [List.findIdx?_eq_some_iff_getElem]
      refine ⟨hlen, ?_, ?_⟩
      · have h3 : entries.get? i = some (entries.get ⟨i, hlen⟩) := List.get?_eq_get hlen
        rw [h3] at hi
        simp only [Option.map_some', Option.some.injEq] at hi
        simpa [List.get_eq_getElem] using hi
      · intro j hj
        have hjlen : j < entries.length := Nat.lt_trans hj hlen
        have h3 : entries.get? j = some (entries.get ⟨j, hjlen⟩) := List.get?_eq_get hjlen
        have h4 := hfirst j hj
        rw [h3] at h4
        simp only [Option.map_some', ne_eq, Option.some.injEq] at h4
        simpa [List.get_eq_getElem] using h4
    unfold preserveCursor
    rw [if_neg hold, hfind]
  · intro j h hj hfirst
    have hlen : j < entries.length := by
      rcases h2 : entries.get? j with _ | e
      · rw [h2] at hj; simp at hj
      · exact (List.get?_eq_some.mp h2).1
    have hfind : entries.findIdx? (fun e => e.branch.isCurrent) = some j := by
      rw [List.findIdx?_eq_some_iff_getElem]
      refine ⟨hlen, ?_, ?_⟩
      · have h3 : entries.get? j = some (entries.get ⟨j, hlen⟩) := List.get?_eq_get hlen
        rw [h3] at hj
        simp only [Option.map_some', Option.some.injEq] at hj
        simpa [List.get_eq_getElem] using hj
      · intro k hk
        have hklen : k < entries.length := Nat.lt_trans hk hlen
        have h3 : entries.get? k = some (entries.get ⟨k, hklen⟩) := List.get?_eq_get hklen
        have h4 := hfirst k hk
        rw [h3] at h4
        simp only [Option.map_some', Option.some.injEq] at h4
        simpa [List.get_eq_getElem] using h4
    unfold preserveCursor
    rw [hname h, hfind]
  · intro h hcur
    have hfind : entries.findIdx? (fun e => e.branch.isCurrent) = none := by
      rw [List.findIdx?_eq_none_iff]
      intro e he
      simpa using hcur e he
    unfold preserveCursor
    rw [hname h, hfind]

theorem claim_C7_witness :
    (("feature-base".data : List Char) ≠ []
      ∧ (chainModel.displayEntries.get? 1).map (fun e => e.branch.name)
          = some ("feature-base".data)
      ∧ preserveCursor ("feature-base".data) chainModel.displayEntries = 1)
    ∧ preserveCursor ("gone".data) chainModel.displayEntries = 0 := by
  refine ⟨⟨by decide, by decide, ?_⟩, ?_⟩
  · exact (claim_C7_preserve_cursor ("feature-base".data) chainModel.displayEntries).1 1
      (by decide) (by decide) (by decide)
  · exact (claim_C7_preserve_cursor ("gone".data) chainModel.displayEntries).2.1 0
      (Or.inr (by decide)) (by decide) (by omega)

end Grit

namespace Grit

/-! ### Lemmas about the string helpers -/

theorem containsSub_eq_isSome (s pat : List Char) :
    containsSub s pat = (lastIndexSub s pat).isSome := by
  unfold containsSub lastIndexSub
  rw [Bool.eq_iff_iff, List.any_eq_true, Option.isSome_iff_ne_none, ne_eq,
    List.getLast?_eq_none_iff]
  constructor
  · rintro ⟨x, hx, hpx⟩ hnil
    rw [List.filter_eq_nil_iff] at hnil
    exact hnil x hx hpx
  · intro h
    rcases List.exists_mem_of_ne_nil _ h with ⟨x, hx⟩
    rcases List.mem_filter.mp hx with ⟨hx1, hx2⟩
    exact ⟨x, hx1, hx2⟩

theorem matchesAt_of_lastIndexSub (s pat : List Char) (idx : Nat)
    (h : lastIndexSub s pat = some idx) : matchesAt s pat idx = true := by
  unfold lastIndexSub at h
  have hmem : idx ∈ (List.range (s.length + 1)).filter (matchesAt s pat) := by
    have := List.getLast?_eq_some_iff.mp h
    rcases this with ⟨l2, hl2⟩
    rw [hl2]
    simp
  exact (List.mem_filter.mp hmem).2

theorem lt_of_matchesAt (s pat : List Char) (idx : Nat) (hp : pat ≠ [])
    (h : matchesAt s pat idx = true) : idx < s.length := by
  unfold matchesAt at h
  have h2 : (s.drop idx).take pat.length = pat := by simpa using h
  by_contra hlt
  have hge : s.length ≤ idx := Nat.le_of_not_lt hlt
  have : s.drop idx = [] := List.drop_eq_nil_of_le hge
  rw [this] at h2
  simp at h2
  exact hp h2

/-- If the two-part condition of `extractAnnotation` fails, the input is
returned unchanged with an empty annotation. -/
theorem extractAnnot_eq_of_not_cond (s : List Char)
    (h : ¬(containsSub s [' ', '('] = true ∧ hasSuffixCh s ')' = true)) :
    extractAnnot s = (s, []) := by
  unfold extractAnnot
  rcases hidx : lastIndexSub s [' ', '('] with _ | idx
  · rfl
  · have hcont : containsSub s [' ', '('] = true := by
      rw [containsSub_eq_isSome, hidx]
      rfl
    have hsuf : ¬ hasSuffixCh s ')' = true := fun hs => h ⟨hcont, hs⟩
    simp [hsuf]

/-- If the condition of `extractAnnotation` holds, the name part is a proper
prefix (the label really is split). -/
theorem extractAnnot_shrink (s : List Char)
    (h : containsSub s [' ', '('] = true ∧ hasSuffixCh s ')' = true) :
    (extractAnnot s).1.length < s.length := by
  rcases h with ⟨hcont, hsuf⟩
  rw [containsSub_eq_isSome] at hcont
  rcases hidx : lastIndexSub s [' ', '('] with _ | idx
  · rw [hidx] at hcont; simp at hcont
  · have hm := matchesAt_of_lastIndexSub s [' ', '('] idx hidx
    have hlt : idx < s.length := lt_of_matchesAt s [' ', '('] idx (by simp) hm
    unfold extractAnnot
    rw [hidx]
    simp [hsuf, List.length_take]
    omega

end Grit

namespace Grit

/-- C9 (amended): annotation extraction splits a label into name and
annotation exactly when the label both contains " (" and ends with ")" (our
two concrete examples behave as the claim states), and re-extraction leaves
an already-extracted name unchanged whenever that name does not itself both
contain " (" and end with ")" — in particular for both examples.  Full
idempotence, however, fails on labels with two parenthesized groups (see the
counterexample). -/
theorem claim_C9_extract_annot (s : List Char) :
    (¬(containsSub s [' ', '('] = true ∧ hasSuffixCh s ')' = true) →
        extractAnnot s = (s, []))
    ∧ (containsSub s [' ', '('] = true ∧ hasSuffixCh s ')' = true →
        (extractAnnot s).1.length < s.length)
    ∧ (¬(containsSub (extractAnnot s).1 [' ', '('] = true
          ∧ hasSuffixCh (extractAnnot s).1 ')' = true) →
        extractAnnot (extractAnnot s).1 = ((extractAnnot s).1, []))
    ∧ extractAnnot ("branch-with-(parens)-in-name".data)
        = (("branch-with-(parens)-in-name").data, [])
    ∧ extractAnnot ("my-branch (merging)".data) = (("my-branch").data, ("merging").data)
    ∧ extractAnnot (extractAnnot ("branch-with-(parens)-in-name".data)).1
        = ((extractAnnot ("branch-with-(parens)-in-name".data)).1, [])
    ∧ extractAnnot (extractAnnot ("my-branch (merging)".data)).1
        = ((extractAnnot ("my-branch (merging)".data)).1, []) :=
  ⟨extractAnnot_eq_of_not_cond s,
   extractAnnot_shrink s,
   extractAnnot_eq_of_not_cond (extractAnnot s).1,
   by decide, by decide, by decide, by decide⟩

/-- C9, counterexample to idempotence as claimed: extracting
"a (b) (c)" yields the name "a (b)", and re-extracting that name strips
again, yielding "a". -/
theorem claim_C9_counterexample :
    (extractAnnot (extractAnnot ("a (b) (c)".data)).1).1
      ≠ (extractAnnot ("a (b) (c)".data)).1 := by
  decide

theorem claim_C9_witness :
    (containsSub ("my-branch (merging)".data) [' ', '('] = true
      ∧ hasSuffixCh ("my-branch (merging)".data) ')' = true)
    ∧ (extractAnnot ("my-branch (merging)".data)).1.length
        < ("my-branch (merging)".data).length :=
  ⟨⟨by decide, by decide⟩,
   (claim_C9_extract_annot ("my-branch (merging)".data)).2.1 ⟨by decide, by decide⟩⟩

end Grit

namespace Grit

theorem splitFirst_eq_none_iff (sep : Char) (s : List Char) :
    splitFirst sep s = none ↔ sep ∉ s := by
  constructor
  · intro h hmem
    rcases hf : s.findIdx? (· = sep) with _ | i
    · rw [List.findIdx?_eq_none_iff] at hf
      have := hf sep hmem
      simp at this
    · unfold splitFirst at h
      rw [hf] at h
      simp at h
  · intro h
    rcases hf : s.findIdx? (· = sep) with _ | i
    · unfold splitFirst
      rw [hf]
    · rcases List.findIdx?_eq_some_iff_getElem.mp hf with ⟨hlen, hp, _⟩
      simp only [decide_eq_true_eq] at hp
      exact absurd (hp ▸ List.getElem_mem hlen) h

theorem mem_of_splitFirst_eq_some (sep : Char) (s : List Char)
    (parts : List Char × List Char) (h : splitFirst sep s = some parts) : sep ∈ s := by
  by_contra hmem
  rw [← splitFirst_eq_none_iff] at hmem
  rw [hmem] at h
  simp at h

end Grit

namespace Grit

/-- C10: the diff-stat parser keeps a line exactly when it contains a `|`
separator, the trimmed text before the `|` is non-empty, and the (trimmed)
line contains neither "file changed" nor "files changed"; the kept entry's
path is the full trimmed text before the `|` (so binary `Bin` lines and
`old => new` rename lines each yield one entry), the trailing total line is
excluded, and a real file whose line contains "files changed" is silently
dropped. -/
theorem claim_C10_parse_diff_stat (line : List Char) :
    ((processDiffLine line).isSome = true ↔
        ('|' ∈ trimSpace line
          ∧ trimSpace (beforePipe line) ≠ []
          ∧ containsSub (trimSpace line) ("file changed".data) = false
          ∧ containsSub (trimSpace line) ("files changed".data) = false))
    ∧ (∀ e, processDiffLine line = some e →
        e.path = trimSpace (beforePipe line)
        ∧ ∃ parts, splitFirst '|' (trimSpace line) = some parts
            ∧ e.summary = trimSpace parts.2)
    ∧ parseDiffStat (" model.go | 5 +++--\n img.png | Bin 0 -> 1024 bytes\n old.go => new.go | 4 ++--\n 3 files changed, 18 insertions(+), 8 deletions(-)".data)
        = [⟨("model.go").data, ("5 +++--").data⟩,
           ⟨("img.png").data, ("Bin 0 -> 1024 bytes").data⟩,
           ⟨("old.go => new.go").data, ("4 ++--").data⟩]
    ∧ processDiffLine (" docs/files changed.md | 2 +-".data) = none := by
  refine ⟨?_, ?_, by decide, by decide⟩
  · by_cases h0 : trimSpace line = []
    · simp [processDiffLine, h0]
    · by_cases h1 : containsSub (trimSpace line) ("file changed".data) = true
      · simp [processDiffLine, h0, h1]
      · by_cases h2 : containsSub (trimSpace line) ("files changed".data) = true
        · simp [processDiffLine, h0, h1, h2]
        · rcases h3 : splitFirst '|' (trimSpace line) with _ | parts
          · have hnot := (splitFirst_eq_none_iff '|' (trimSpace line)).mp h3
            simp [processDiffLine, h0, h1, h2, h3, hnot]
          · have hmem := mem_of_splitFirst_eq_some '|' (trimSpace line) parts h3
            by_cases h4 : trimSpace parts.1 = []
            · simp [processDiffLine, beforePipe, h0, h1, h2, h3, h4, hmem]
            · rw [Bool.not_eq_true] at h1 h2
              simp [processDiffLine, beforePipe, h0, h1, h2, h3, h4, hmem]
  · intro e he
    by_cases h0 : trimSpace line = []
    · simp [processDiffLine, h0] at he
    · by_cases h1 : containsSub (trimSpace line) ("file changed".data) = true
      · simp [processDiffLine, h0, h1] at he
      · by_cases h2 : containsSub (trimSpace line) ("files changed".data) = true
        · simp [processDiffLine, h0, h1, h2] at he
        · rcases h3 : splitFirst '|' (trimSpace line) with _ | parts
          · simp [processDiffLine, h0, h1, h2, h3] at he
          · by_cases h4 : trimSpace parts.1 = []
            · simp [processDiffLine, h0, h1, h2, h3, h4] at he
            · simp [processDiffLine, h0, h1, h2, h3, h4] at he
              subst he
              exact ⟨by simp [beforePipe, h3], parts, rfl, rfl⟩

theorem claim_C10_witness :
    processDiffLine (" a.go | 1 +".data) = some ⟨("a.go").data, ("1 +").data⟩
    ∧ (⟨("a.go").data, ("1 +").data⟩ : DiffFileEntry).path
        = trimSpace (beforePipe (" a.go | 1 +".data)) := by
  refine ⟨by decide, ?_⟩
  exact ((claim_C10_parse_diff_stat (" a.go | 1 +".data)).2.1
    ⟨("a.go").data, ("1 +").data⟩ (by decide)).1

end Grit

namespace Grit

/-- If no node anywhere in the forest `cs` bears `name`, the recursive
parent search finds nothing. -/
theorem findParentIn_eq_none (pn name : List Char) (cs : List Branch)
    (h : ∀ e ∈ collectAll cs, e.branch.name ≠ name) :
    findParentIn pn cs name = none := by
  match cs with
  | [] => simp [findParentIn]
  | c :: rest =>
    have hc : c.name ≠ name := by
      have : (⟨c, c.depth⟩ : DisplayEntry) ∈ collectAll (c :: rest) := by
        rw [collectAll]
        exact List.mem_cons_self _ _
      exact h _ this
    have hchild : findParentIn c.name c.children name = none := by
      apply findParentIn_eq_none
      intro e he
      apply h
      rw [collectAll]
      exact List.mem_cons_of_mem _ (List.mem_append_left _ he)
    have hrest : findParentIn pn rest name = none := by
      apply findParentIn_eq_none
      intro e he
      apply h
      rw [collectAll]
      exact List.mem_cons_of_mem _ (List.mem_append_right _ he)
    rw [findParentIn, if_neg hc, findParentRec, hchild, hrest]
termination_by sizeOf cs
decreasing_by
  · exact Nat.lt_of_lt_of_le (sizeOf_children_lt c) (by simp; omega)
  · simp

/-- If `name` occurs nowhere among the descendants of any root (i.e. the
named branch has no parent in the forest), `FindParent` reports none. -/
theorem FindParent_eq_none (branches : List Branch) (name : List Char)
    (h : ∀ root ∈ branches, ∀ e ∈ collectAll root.children, e.branch.name ≠ name) :
    FindParent branches name = none := by
  induction branches with
  | nil => rfl
  | cons root rest ih =>
      have hroot : findParentRec root name = none := by
        rw [findParentRec]
        exact findParentIn_eq_none root.name name root.children
          (h root (List.mem_cons_self _ _))
      rw [FindParent, hroot]
      exact ih (fun r hr => h r (List.mem_cons_of_mem _ hr))

/-- C6: a request-diff action whose selection is a root node (a branch with
no parent anywhere in the forest) is rejected: a visible error message is
set, the view mode stays `tree`, and no command (hence no subprocess) is
dispatched. -/
theorem claim_C6_diff_on_trunk_rejected (m : Model) (b : Branch)
    (hmode : m.mode = ViewMode.tree) (hrun : m.running = false)
    (hsel : m.selectedBranch = some b)
    (hnoparent : ∀ root ∈ m.branches, ∀ e ∈ collectAll root.children,
        e.branch.name ≠ b.name) :
    Update m (Msg.key Key.diff)
      = ({ m with statusBar :=
            m.statusBar.setMessage ("No parent branch for ".data ++ b.name) true }, [])
    ∧ (Update m (Msg.key Key.diff)).1.mode = ViewMode.tree
    ∧ (Update m (Msg.key Key.diff)).1.statusBar.isError = true
    ∧ (Update m (Msg.key Key.diff)).2 = [] := by
  have hfp : FindParent m.branches b.name = none := FindParent_eq_none _ _ hnoparent
  have heq : Update m (Msg.key Key.diff)
      = ({ m with statusBar :=
            m.statusBar.setMessage ("No parent branch for ".data ++ b.name) true }, []) := by
    simp [Update, hrun, hmode, treeKey, hsel, hfp]
  refine ⟨heq, ?_, ?_, ?_⟩ <;> rw [heq] <;> simp [StatusBar.setMessage, hmode]

/-- The chain fixture's trunk name occurs among no root's descendants. -/
theorem chain_trunk_noparent :
    ∀ root ∈ chainForest, ∀ e ∈ collectAll root.children,
      e.branch.name ≠ ("main").data := by
  intro root hr e he
  rw [chainForest_eq] at hr
  rcases List.mem_singleton.mp hr with rfl
  simp [collectAll, mainB, baseB, topB] at he
  rcases he with he | he <;> rw [he] <;> decide

def rejectedChainModel : Model :=
  { chainModel with statusBar := chainModel.statusBar.setMessage (("No parent branch for ".data) ++ mainB.name) true }

theorem claim_C6_witness :
    Update chainModel (Msg.key Key.diff) = (rejectedChainModel, []) := by
  have h := claim_C6_diff_on_trunk_rejected chainModel mainB rfl rfl rfl
    chain_trunk_noparent
  exact h.1

end Grit

namespace Grit

/-! ### Construction invariants for `ParseLogShort` -/

/-- The parent index recorded for entry `j` (none when `j` is out of range,
is the root, or was orphaned by a failed tip lookup). -/
def parentOf (es : List CEntry) (j : Nat) : Option Nat :=
  match es.get? j with
  | none => none
  | some e => e.parent

/-- The parsed depth recorded for entry `j`. -/
def depthAt (es : List CEntry) (j : Nat) : Option Nat :=
  (es.get? j).map (fun e => e.pl.depth)

theorem mem_childIdxs (es : List CEntry) (i j : Nat) :
    j ∈ childIdxs es i ↔ j < es.length ∧ parentOf es j = some i := by
  unfold childIdxs parentOf
  rw [List.mem_filter, List.mem_range]
  rcases h : es.get? j with _ | e <;> simp [h]

/-- The invariants of the recorded parent indices: a parent precedes its
child, and a child's parsed depth is its parent's depth, one more, or the
child sits at depth 0 under the root (entry 0). -/
structure EsInv (es : List CEntry) : Prop where
  plt : ∀ j p, parentOf es j = some p → p < j
  drel : ∀ j p, parentOf es j = some p →
    depthAt es j = depthAt es p
    ∨ (∃ d, depthAt es p = some d ∧ depthAt es j = some (d + 1))
    ∨ (depthAt es j = some 0 ∧ p = 0)

/-- The loop invariant of the construction fold. -/
structure StInv (st : BuildState) : Prop where
  ne : st.entries ≠ []
  tips : ∀ kv ∈ st.tips, kv.2 < st.entries.length
    ∧ depthAt st.entries kv.2 = some kv.1
  inv : EsInv st.entries

theorem get?_append_left {α : Type} (l : List α) (x : α) (j : Nat)
    (h : j < l.length) : (l ++ [x]).get? j = l.get? j :=
  List.get?_append h

theorem parentOf_append (es : List CEntry) (x : CEntry) (j : Nat)
    (h : j < es.length) : parentOf (es ++ [x]) j = parentOf es j := by
  unfold parentOf
  rw [get?_append_left es x j h]

theorem depthAt_append (es : List CEntry) (x : CEntry) (j : Nat)
    (h : j < es.length) : depthAt (es ++ [x]) j = depthAt es j := by
  unfold depthAt
  rw [get?_append_left es x j h]

theorem parentOf_append_last (es : List CEntry) (x : CEntry) :
    parentOf (es ++ [x]) es.length = x.parent := by
  unfold parentOf
  rw [List.get?_concat_length]

theorem depthAt_append_last (es : List CEntry) (x : CEntry) :
    depthAt (es ++ [x]) es.length = some x.pl.depth := by
  unfold depthAt
  rw [List.get?_concat_length]
  rfl

theorem parentOf_lt_length (es : List CEntry) (j p : Nat)
    (h : parentOf es j = some p) : j < es.length := by
  unfold parentOf at h
  rcases h2 : es.get? j with _ | e
  · rw [h2] at h; simp at h
  · exact (List.get?_eq_some.mp h2).1

theorem mapLookup_mem (m : List (Nat × Nat)) (k v : Nat)
    (h : mapLookup m k = some v) : (k, v) ∈ m := by
  unfold mapLookup at h
  rcases h2 : m.find? (fun e => e.1 = k) with _ | e
  · rw [h2] at h; simp at h
  · rw [h2] at h
    simp at h
    have hmem := List.mem_of_find?_eq_some h2
    have hk := List.find?_some h2
    simp at hk
    have : e = (k, v) := by
      rcases e with ⟨e1, e2⟩
      simp at hk h
      rw [hk, h]
    rw [← this]
    exact hmem

theorem mapInsert_mem (m : List (Nat × Nat)) (k v : Nat) (kv : Nat × Nat)
    (h : kv ∈ mapInsert m k v) : kv = (k, v) ∨ kv ∈ m := by
  unfold mapInsert at h
  rcases List.mem_cons.mp h with h | h
  · exact Or.inl h
  · exact Or.inr (List.mem_of_mem_filter h)

theorem mapEraseRange_subset (m : List (Nat × Nat)) (lo hi : Nat)
    (kv : Nat × Nat) (h : kv ∈ mapEraseRange m lo hi) : kv ∈ m :=
  List.mem_of_mem_filter h

end Grit

namespace Grit

/-- Appending one entry whose recorded parent is sound (absent, the root for
a depth-0 line, or a tip at the right depth) preserves the entry
invariants. -/
theorem append_entry_inv (st : BuildState) (p : ParsedLine) (par : Option Nat)
    (hinv : StInv st)
    (hpar : par = none
      ∨ (par = some 0 ∧ p.depth = 0)
      ∨ (∃ v, par = some v ∧ v < st.entries.length
            ∧ (depthAt st.entries v = some p.depth
               ∨ (p.depth ≠ 0 ∧ depthAt st.entries v = some (p.depth - 1))))) :
    EsInv (st.entries ++ [⟨p, par⟩]) := by
  have hne : 0 < st.entries.length := List.length_pos.mpr hinv.ne
  constructor
  · intro j q hq
    have hjlt : j < st.entries.length + 1 := by
      have := parentOf_lt_length _ _ _ hq
      simpa using this
    rcases Nat.lt_or_ge j st.entries.length with hj | hj
    · rw [parentOf_append _ _ _ hj] at hq
      exact hinv.inv.plt j q hq
    · have hj2 : j = st.entries.length := by omega
      subst hj2
      rw [parentOf_append_last] at hq
      rcases hpar with h | ⟨h, _⟩ | ⟨v, h, hv, _⟩
      · rw [h] at hq; simp at hq
      · rw [h] at hq
        simp at hq
        omega
      · rw [h] at hq
        simp at hq
        omega
  · intro j q hq
    have hjlt : j < st.entries.length + 1 := by
      have := parentOf_lt_length _ _ _ hq
      simpa using this
    rcases Nat.lt_or_ge j st.entries.length with hj | hj
    · rw [parentOf_append _ _ _ hj] at hq
      have hqlt : q < j := hinv.inv.plt j q hq
      have hqlen : q < st.entries.length := by omega
      have := hinv.inv.drel j q hq
      rw [← depthAt_append st.entries ⟨p, par⟩ j hj,
          ← depthAt_append st.entries ⟨p, par⟩ q hqlen] at this
      exact this
    · have hj2 : j = st.entries.length := by omega
      subst hj2
      rw [parentOf_append_last] at hq
      rcases hpar with h | ⟨h, hd⟩ | ⟨v, h, hv, hcase⟩
      · rw [h] at hq; simp at hq
      · rw [h] at hq
        simp at hq
        subst hq
        refine Or.inr (Or.inr ⟨?_, rfl⟩)
        rw [depthAt_append_last, hd]
      · rw [h] at hq
        simp at hq
        subst hq
        rcases hcase with hc | ⟨hp0, hc⟩
        · refine Or.inl ?_
          rw [depthAt_append_last, depthAt_append _ _ _ hv, hc]
        · refine Or.inr (Or.inl ⟨p.depth - 1, ?_, ?_⟩)
          · rw [depthAt_append _ _ _ hv, hc]
          · rw [depthAt_append_last]
            have hd1 : p.depth - 1 + 1 = p.depth := by omega
            rw [hd1]

/-- `stepBuild` preserves the loop invariant. -/
theorem stepBuild_inv (st : BuildState) (p : ParsedLine) (hinv : StInv st) :
    StInv (stepBuild st p) := by
  have hne : 0 < st.entries.length := List.length_pos.mpr hinv.ne
  have htips2 : ∀ kv ∈ mapEraseRange st.tips (p.depth + 1) st.prevDepth,
      kv.2 < st.entries.length ∧ depthAt st.entries kv.2 = some kv.1 :=
    fun kv hkv => hinv.tips kv (mapEraseRange_subset _ _ _ _ hkv)
  have hparOf : ∀ (tips : List (Nat × Nat))
      (_ : ∀ kv ∈ tips, kv.2 < st.entries.length ∧ depthAt st.entries kv.2 = some kv.1)
      (d : Nat),
      mapLookup tips d = none
      ∨ (∃ v, mapLookup tips d = some v ∧ v < st.entries.length
            ∧ depthAt st.entries v = some d) := by
    intro tips htips d
    rcases hl : mapLookup tips d with _ | v
    · exact Or.inl rfl
    · have hmem := mapLookup_mem tips d v hl
      rcases htips (d, v) hmem with ⟨h1, h2⟩
      exact Or.inr ⟨v, rfl, h1, h2⟩
  have hnewtips : ∀ (tips : List (Nat × Nat))
      (_ : ∀ kv ∈ tips, kv.2 < st.entries.length ∧ depthAt st.entries kv.2 = some kv.1)
      (par : Option Nat),
      ∀ kv ∈ mapInsert tips p.depth st.entries.length,
        kv.2 < (st.entries ++ [(⟨p, par⟩ : CEntry)]).length
        ∧ depthAt (st.entries ++ [(⟨p, par⟩ : CEntry)]) kv.2 = some kv.1 := by
    intro tips htips par kv hkv
    rcases mapInsert_mem _ _ _ _ hkv with h | h
    · subst h
      constructor
      · simp
      · rw [depthAt_append_last]
    · rcases htips kv h with ⟨h1, h2⟩
      constructor
      · simp; omega
      · rw [depthAt_append _ _ _ h1]
        exact h2
  unfold stepBuild
  by_cases h0 : p.depth = 0
  · simp only [h0, if_pos rfl]
    refine ⟨by simp, ?_, ?_⟩
    · intro kv hkv
      have : ∀ kv ∈ mapInsert st.tips p.depth st.entries.length,
          kv.2 < (st.entries ++ [(⟨p, some 0⟩ : CEntry)]).length
          ∧ depthAt (st.entries ++ [(⟨p, some 0⟩ : CEntry)]) kv.2 = some kv.1 :=
        hnewtips st.tips hinv.tips (some 0)
      rw [h0] at this
      exact this kv hkv
    · exact append_entry_inv st p (some 0) hinv (Or.inr (Or.inl ⟨rfl, h0⟩))
  · rw [if_neg h0]
    by_cases h1 : p.depth = st.prevDepth
    · rw [if_pos h1]
      refine ⟨by simp, hnewtips st.tips hinv.tips _, ?_⟩
      rcases hparOf st.tips hinv.tips p.depth with h | ⟨v, hv, hlt, hd⟩
      · rw [h]
        exact append_entry_inv st p none hinv (Or.inl rfl)
      · rw [hv]
        exact append_entry_inv st p (some v) hinv
          (Or.inr (Or.inr ⟨v, rfl, hlt, Or.inl hd⟩))
    · rw [if_neg h1]
      by_cases h2 : st.prevDepth < p.depth
      · rw [if_pos h2]
        refine ⟨by simp, hnewtips st.tips hinv.tips _, ?_⟩
        rcases hparOf st.tips hinv.tips (p.depth - 1) with h | ⟨v, hv, hlt, hd⟩
        · rw [h]
          exact append_entry_inv st p none hinv (Or.inl rfl)
        · rw [hv]
          exact append_entry_inv st p (some v) hinv
            (Or.inr (Or.inr ⟨v, rfl, hlt, Or.inr ⟨h0, hd⟩⟩))
      · rw [if_neg h2]
        refine ⟨by simp, hnewtips _ htips2 _, ?_⟩
        rcases hparOf _ htips2 (p.depth - 1) with h | ⟨v, hv, hlt, hd⟩
        · rw [h]
          exact append_entry_inv st p none hinv (Or.inl rfl)
        · rw [hv]
          exact append_entry_inv st p (some v) hinv
            (Or.inr (Or.inr ⟨v, rfl, hlt, Or.inr ⟨h0, hd⟩⟩))

end Grit

namespace Grit

theorem foldl_inv (ps : List ParsedLine) (st : BuildState) (h : StInv st) :
    StInv (ps.foldl stepBuild st) := by
  induction ps generalizing st with
  | nil => exact h
  | cons p ps ih => exact ih _ (stepBuild_inv st p h)

theorem initState_inv (p0 : ParsedLine) : StInv (initState p0) := by
  refine ⟨by simp [initState], ?_, ?_, ?_⟩
  · intro kv hkv
    simp [initState] at hkv
    rw [hkv]
    refine ⟨by simp [initState], ?_⟩
    simp [initState, depthAt]
  · intro j p h
    unfold parentOf initState at h
    match j with
    | 0 => simp at h
    | j + 1 => simp at h
  · intro j p h
    unfold parentOf initState at h
    match j with
    | 0 => simp at h
    | j + 1 => simp at h

theorem foldl_entries_pl (ps : List ParsedLine) (st : BuildState) :
    (ps.foldl stepBuild st).entries.map CEntry.pl = st.entries.map CEntry.pl ++ ps := by
  induction ps generalizing st with
  | nil => simp
  | cons p ps ih =>
      rw [List.foldl_cons, ih]
      have hstep : (stepBuild st p).entries.map CEntry.pl
          = st.entries.map CEntry.pl ++ [p] := by
        unfold stepBuild
        split_ifs <;> simp
      rw [hstep]
      simp

theorem buildEntries_inv (p0 : ParsedLine) (rest : List ParsedLine) :
    EsInv (buildEntries (p0 :: rest)) :=
  (foldl_inv rest (initState p0) (initState_inv p0)).inv

theorem buildEntries_pl (p0 : ParsedLine) (rest : List ParsedLine) :
    (buildEntries (p0 :: rest)).map CEntry.pl = p0 :: rest := by
  unfold buildEntries
  rw [foldl_entries_pl]
  simp [initState]

theorem buildEntries_length (p0 : ParsedLine) (rest : List ParsedLine) :
    (buildEntries (p0 :: rest)).length = rest.length + 1 := by
  have h := congrArg List.length (buildEntries_pl p0 rest)
  simpa using h

end Grit

namespace Grit

/-- The indices of the subtree rooted at entry `i`, in preorder, with fuel. -/
def subIdx (es : List CEntry) : Nat → Nat → List Nat
  | 0, _ => []
  | fuel + 1, i => i :: (childIdxs es i).flatMap (fun j => subIdx es fuel j)

/-- The parent-step relation on entry indices. -/
def PStep (es : List CEntry) (a b : Nat) : Prop := parentOf es a = some b

theorem childIdxs_gt (es : List CEntry)
    (hplt : ∀ j p, parentOf es j = some p → p < j) (i j : Nat)
    (h : j ∈ childIdxs es i) : i < j ∧ j < es.length := by
  rcases (mem_childIdxs es i j).mp h with ⟨h1, h2⟩
  exact ⟨hplt j i h2, h1⟩

theorem subIdx_bounds (es : List CEntry)
    (hplt : ∀ j p, parentOf es j = some p → p < j) :
    ∀ (fuel i : Nat), i < es.length → ∀ k ∈ subIdx es fuel i, i ≤ k ∧ k < es.length := by
  intro fuel
  induction fuel with
  | zero => intro i _ k hk; simp [subIdx] at hk
  | succ fuel ih =>
      intro i hi k hk
      rw [subIdx] at hk
      rcases List.mem_cons.mp hk with rfl | hk
      · exact ⟨Nat.le_refl _, hi⟩
      · rcases List.mem_flatMap.mp hk with ⟨j, hj, hkj⟩
        rcases childIdxs_gt es hplt i j hj with ⟨hij, hjlen⟩
        rcases ih j hjlen k hkj with ⟨h1, h2⟩
        exact ⟨by omega, h2⟩

theorem subIdx_chain (es : List CEntry) :
    ∀ (fuel i k : Nat), k ∈ subIdx es fuel i →
      Relation.ReflTransGen (PStep es) k i := by
  intro fuel
  induction fuel with
  | zero => intro i k hk; simp [subIdx] at hk
  | succ fuel ih =>
      intro i k hk
      rw [subIdx] at hk
      rcases List.mem_cons.mp hk with rfl | hk
      · exact Relation.ReflTransGen.refl
      · rcases List.mem_flatMap.mp hk with ⟨j, hj, hkj⟩
        have hstep : PStep es j i := ((mem_childIdxs es i j).mp hj).2
        exact Relation.ReflTransGen.tail (ih j k hkj) hstep

theorem reflTransGen_dichotomy {α : Type} (r : α → α → Prop)
    (hfun : ∀ a b c, r a b → r a c → b = c) {k a b : α}
    (hka : Relation.ReflTransGen r k a) (hkb : Relation.ReflTransGen r k b) :
    Relation.ReflTransGen r a b ∨ Relation.ReflTransGen r b a := by
  induction hka using Relation.ReflTransGen.head_induction_on with
  | refl => exact Or.inl hkb
  | head hstep _ ih =>
      rcases Relation.ReflTransGen.cases_head hkb with rfl | ⟨c2, hstep2, hc2⟩
      · exact Or.inr (Relation.ReflTransGen.head hstep (by assumption))
      · have := hfun _ _ _ hstep hstep2
        subst this
        exact ih hc2

theorem rtg_pstep_le (es : List CEntry)
    (hplt : ∀ j p, parentOf es j = some p → p < j) {a b : Nat}
    (h : Relation.ReflTransGen (PStep es) a b) : b ≤ a := by
  induction h with
  | refl => exact Nat.le_refl _
  | tail _ hstep ih =>
      have := hplt _ _ hstep
      omega

theorem subIdx_sibling_disjoint (es : List CEntry)
    (hplt : ∀ j p, parentOf es j = some p → p < j)
    (i j1 j2 : Nat) (h1 : parentOf es j1 = some i) (h2 : parentOf es j2 = some i)
    (hne : j1 ≠ j2) (f1 f2 k : Nat)
    (hk1 : k ∈ subIdx es f1 j1) (hk2 : k ∈ subIdx es f2 j2) : False := by
  have hc1 := subIdx_chain es f1 j1 k hk1
  have hc2 := subIdx_chain es f2 j2 k hk2
  have hfun : ∀ a b c, PStep es a b → PStep es a c → b = c := by
    intro a b c hb hc
    unfold PStep at hb hc
    rw [hb] at hc
    exact Option.some.inj hc
  have hcross : ∀ (x y : Nat), parentOf es x = some i → parentOf es y = some i →
      x ≠ y → Relation.ReflTransGen (PStep es) x y → False := by
    intro x y hx hy hxy hchain
    rcases Relation.ReflTransGen.cases_head hchain with h | ⟨c, hstep, hc⟩
    · exact hxy h
    · have hci : c = i := hfun x c i hstep hx
      rw [hci] at hc
      have hle : y ≤ i := rtg_pstep_le es hplt hc
      have hlt : i < y := hplt y i hy
      omega
  rcases reflTransGen_dichotomy (PStep es) hfun hc1 hc2 with h | h
  · exact hcross j1 j2 h1 h2 hne h
  · exact hcross j2 j1 h2 h1 (Ne.symm hne) h

theorem childIdxs_nodup (es : List CEntry) (i : Nat) : (childIdxs es i).Nodup :=
  List.Nodup.filter _ (List.nodup_range _)

theorem subIdx_nodup (es : List CEntry)
    (hplt : ∀ j p, parentOf es j = some p → p < j) :
    ∀ (fuel i : Nat), i < es.length → (subIdx es fuel i).Nodup := by
  intro fuel
  induction fuel with
  | zero => intro i _; simp [subIdx]
  | succ fuel ih =>
      intro i hi
      rw [subIdx]
      refine List.Nodup.cons ?_ ?_
      · intro hmem
        rcases List.mem_flatMap.mp hmem with ⟨j, hj, hij⟩
        rcases childIdxs_gt es hplt i j hj with ⟨hij2, hjlen⟩
        rcases subIdx_bounds es hplt fuel j hjlen i hij with ⟨h1, _⟩
        omega
      · rw [List.nodup_flatMap]
        constructor
        · intro j hj
          exact ih j (childIdxs_gt es hplt i j hj).2
        · have hnd := childIdxs_nodup es i
          refine List.Pairwise.imp_of_mem ?_ hnd
          intro a b ha hb hab
          intro k hk1 hk2
          exact subIdx_sibling_disjoint es hplt i a b
            ((mem_childIdxs es i a).mp ha).2 ((mem_childIdxs es i b).mp hb).2
            hab fuel fuel k hk1 hk2

end Grit

namespace Grit

theorem buildNode_eq (es : List CEntry) (n f i : Nat) (e : CEntry)
    (h : es.get? i = some e) :
    buildNode es n (f + 1) i
      = ⟨e.pl.name, e.pl.isCurrent, e.pl.annot, e.pl.depth, n - 1 - i,
         (childIdxs es i).map (fun j => buildNode es n f j)⟩ := by
  rw [buildNode, h]

theorem buildNode_fuel_irrel (es : List CEntry)
    (hplt : ∀ j p, parentOf es j = some p → p < j) :
    ∀ (f g i : Nat), i < es.length → es.length ≤ f + i → es.length ≤ g + i →
      buildNode es es.length f i = buildNode es es.length g i
  | 0, _, i, hi, hf, _ => by omega
  | _ + 1, 0, i, hi, _, hg => by omega
  | f + 1, g + 1, i, hi, hf, hg => by
      rcases h : es.get? i with _ | e
      · rw [List.get?_eq_none] at h
        omega
      · rw [buildNode_eq es _ f i e h, buildNode_eq es _ g i e h]
        congr 1
        apply List.map_congr_left
        intro j hj
        rcases childIdxs_gt es hplt i j hj with ⟨hij, hjlen⟩
        exact buildNode_fuel_irrel es hplt f g j hjlen (by omega) (by omega)
termination_by _ _ i => es.length - i
decreasing_by omega

theorem collectAll_singleton (b : Branch) :
    collectAll [b] = ⟨b, b.depth⟩ :: collectAll b.children := by
  simp [collectAll]

theorem collectAll_cons (b : Branch) (rest : List Branch) :
    collectAll (b :: rest) = collectAll [b] ++ collectAll rest := by
  rw [collectAll, collectAll_singleton]
  simp

theorem flatMap_congr_mem {α β : Type} (l : List α) (f g : α → List β)
    (h : ∀ a ∈ l, f a = g a) : l.flatMap f = l.flatMap g := by
  induction l with
  | nil => rfl
  | cons a l ih =>
      rw [List.flatMap_cons, List.flatMap_cons, h a (List.mem_cons_self a l),
        ih (fun b hb => h b (List.mem_cons_of_mem _ hb))]

theorem collectAll_map_flatMap (g : Nat → Branch) (js : List Nat) :
    collectAll (js.map g) = js.flatMap (fun j => collectAll [g j]) := by
  induction js with
  | nil => simp [collectAll]
  | cons j js ih => rw [List.map_cons, collectAll_cons, ih, List.flatMap_cons]

theorem collect_orders (es : List CEntry)
    (hplt : ∀ j p, parentOf es j = some p → p < j) :
    ∀ (f i : Nat), i < es.length → es.length ≤ f + i →
      (collectAll [buildNode es es.length f i]).map (fun d => d.branch.order)
        = (subIdx es f i).map (fun k => es.length - 1 - k) := by
  intro f
  induction f with
  | zero => intro i hi hf; omega
  | succ f ih =>
      intro i hi hf
      rcases h : es.get? i with _ | e
      · rw [List.get?_eq_none] at h
        omega
      · rw [buildNode_eq es _ f i e h, collectAll_singleton]
        simp only [List.map_cons]
        rw [collectAll_map_flatMap, List.map_flatMap, subIdx, List.map_cons,
          List.map_flatMap]
        congr 1
        apply flatMap_congr_mem
        intro j hj
        rcases childIdxs_gt es hplt i j hj with ⟨hij, hjlen⟩
        exact ih j hjlen (by omega)

theorem collect_mem (es : List CEntry)
    (hplt : ∀ j p, parentOf es j = some p → p < j) :
    ∀ (f i : Nat), i < es.length → es.length ≤ f + i →
      ∀ d ∈ collectAll [buildNode es es.length f i],
        ∃ k, k < es.length
          ∧ d = ⟨buildNode es es.length (es.length - k) k,
                 (buildNode es es.length (es.length - k) k).depth⟩ := by
  intro f
  induction f with
  | zero => intro i hi hf; omega
  | succ f ih =>
      intro i hi hf d hd
      rcases h : es.get? i with _ | e
      · rw [List.get?_eq_none] at h
        omega
      · rw [collectAll_singleton] at hd
        rcases List.mem_cons.mp hd with rfl | hd
        · refine ⟨i, hi, ?_⟩
          have hfe : buildNode es es.length (f + 1) i
              = buildNode es es.length (es.length - i) i :=
            buildNode_fuel_irrel es hplt (f + 1) (es.length - i) i hi (by omega) (by omega)
          rw [hfe]
        · rw [buildNode_eq es _ f i e h] at hd
          simp only [] at hd
          rw [collectAll_map_flatMap] at hd
          rcases List.mem_flatMap.mp hd with ⟨j, hj, hdj⟩
          rcases childIdxs_gt es hplt i j hj with ⟨hij, hjlen⟩
          exact ih j hjlen (by omega) d hdj

end Grit

namespace Grit

theorem ParseLogShort_nil (input : List Char) (h : parsedLinesRev input = []) :
    ParseLogShort input = [] := by
  unfold ParseLogShort
  rw [h]

theorem ParseLogShort_cons (input : List Char) (p0 : ParsedLine) (rest : List ParsedLine)
    (h : parsedLinesRev input = p0 :: rest) :
    ParseLogShort input
      = [buildNode (buildEntries (p0 :: rest)) (buildEntries (p0 :: rest)).length
          (buildEntries (p0 :: rest)).length 0] := by
  unfold ParseLogShort
  rw [h]

/-- C3 (order recording modelled from the spec, see `Branch`): linearizing a
parsed forest sorts by `order` and yields the forest's nodes with `order`
strictly increasing; the display list is exactly the forest's nodes; and each
node's `order` indexes its original pre-reversal line in the snapshot, whose
parsed fields the node carries. -/
theorem claim_C3_linearization (input : List Char) :
    ((flattenForDisplay (ParseLogShort input)).map (fun d => d.branch.order)).Pairwise (· < ·)
    ∧ (flattenForDisplay (ParseLogShort input)).Perm (collectAll (ParseLogShort input))
    ∧ (collectAll (ParseLogShort input)).map
        (fun d => (parsedLinesPre input)[d.branch.order]?)
      = (collectAll (ParseLogShort input)).map
        (fun d => some ⟨d.branch.name, d.branch.depth, d.branch.isCurrent, d.branch.annot⟩) := by
  rcases hrev : parsedLinesRev input with _ | ⟨p0, rest⟩
  · rw [ParseLogShort_nil input hrev]
    refine ⟨?_, ?_, ?_⟩ <;> simp [flattenForDisplay, collectAll]
  · rw [ParseLogShort_cons input p0 rest hrev]
    have hinv := buildEntries_inv p0 rest
    have hplt := hinv.plt
    have hlen : (buildEntries (p0 :: rest)).length = rest.length + 1 :=
      buildEntries_length p0 rest
    have hnpos : 0 < (buildEntries (p0 :: rest)).length := by omega
    have hperm : (flattenForDisplay
          [buildNode (buildEntries (p0 :: rest)) (buildEntries (p0 :: rest)).length
            (buildEntries (p0 :: rest)).length 0]).Perm
        (collectAll
          [buildNode (buildEntries (p0 :: rest)) (buildEntries (p0 :: rest)).length
            (buildEntries (p0 :: rest)).length 0]) :=
      List.mergeSort_perm _ _
    have horders : (collectAll
          [buildNode (buildEntries (p0 :: rest)) (buildEntries (p0 :: rest)).length
            (buildEntries (p0 :: rest)).length 0]).map (fun d => d.branch.order)
        = (subIdx (buildEntries (p0 :: rest)) (buildEntries (p0 :: rest)).length 0).map
            (fun k => (buildEntries (p0 :: rest)).length - 1 - k) :=
      collect_orders (buildEntries (p0 :: rest)) hplt
        (buildEntries (p0 :: rest)).length 0 hnpos (by omega)
    have hnodup : ((collectAll
          [buildNode (buildEntries (p0 :: rest)) (buildEntries (p0 :: rest)).length
            (buildEntries (p0 :: rest)).length 0]).map (fun d => d.branch.order)).Nodup := by
      rw [horders]
      refine List.Nodup.map_on ?_ ?_
      · intro x hx y hy hxy
        rcases subIdx_bounds (buildEntries (p0 :: rest)) hplt
            (buildEntries (p0 :: rest)).length 0 hnpos x hx with ⟨_, hx2⟩
        rcases subIdx_bounds (buildEntries (p0 :: rest)) hplt
            (buildEntries (p0 :: rest)).length 0 hnpos y hy with ⟨_, hy2⟩
        omega
      · exact subIdx_nodup (buildEntries (p0 :: rest)) hplt
          (buildEntries (p0 :: rest)).length 0 hnpos
    refine ⟨?_, hperm, ?_⟩
    · have htrans : ∀ a b c : DisplayEntry, leOrder a b → leOrder b c → leOrder a c := by
        intro a b c hab hbc
        simp [leOrder] at hab hbc ⊢
        omega
      have htotal : ∀ a b : DisplayEntry, leOrder a b || leOrder b a := by
        intro a b
        simp [leOrder]
        omega
      have hsorted := List.sorted_mergeSort htrans htotal
        (collectAll
          [buildNode (buildEntries (p0 :: rest)) (buildEntries (p0 :: rest)).length
            (buildEntries (p0 :: rest)).length 0])
      have hsorted2 : (flattenForDisplay
            [buildNode (buildEntries (p0 :: rest)) (buildEntries (p0 :: rest)).length
              (buildEntries (p0 :: rest)).length 0]).Pairwise
          (fun a b => a.branch.order ≤ b.branch.order) := by
        refine List.Pairwise.imp ?_ hsorted
        intro a b h
        simpa [leOrder] using h
      have hmapnodup : ((flattenForDisplay
            [buildNode (buildEntries (p0 :: rest)) (buildEntries (p0 :: rest)).length
              (buildEntries (p0 :: rest)).length 0]).map (fun d => d.branch.order)).Nodup :=
        ((hperm.map (fun d => d.branch.order)).nodup_iff).mpr hnodup
      rw [List.pairwise_map]
      have hne : (flattenForDisplay
            [buildNode (buildEntries (p0 :: rest)) (buildEntries (p0 :: rest)).length
              (buildEntries (p0 :: rest)).length 0]).Pairwise
          (fun a b => a.branch.order ≠ b.branch.order) := by
        exact (List.pairwise_map.mp hmapnodup)
      exact (hsorted2.and hne).imp (fun h => Nat.lt_of_le_of_ne h.1 h.2)
    · apply List.map_congr_left
      intro d hd
      rcases collect_mem (buildEntries (p0 :: rest)) hplt
          (buildEntries (p0 :: rest)).length 0 hnpos (by omega) d hd with ⟨k, hk, hdk⟩
      rcases h2 : (buildEntries (p0 :: rest)).get? k with _ | ek
      · rw [List.get?_eq_none] at h2
        omega
      · have hfk : (buildEntries (p0 :: rest)).length - k
            = ((buildEntries (p0 :: rest)).length - k - 1) + 1 := by omega
        have hb : buildNode (buildEntries (p0 :: rest)) (buildEntries (p0 :: rest)).length
              ((buildEntries (p0 :: rest)).length - k) k
            = ⟨ek.pl.name, ek.pl.isCurrent, ek.pl.annot, ek.pl.depth,
               (buildEntries (p0 :: rest)).length - 1 - k,
               (childIdxs (buildEntries (p0 :: rest)) k).map
                 (fun j => buildNode (buildEntries (p0 :: rest))
                   (buildEntries (p0 :: rest)).length
                   ((buildEntries (p0 :: rest)).length - k - 1) j)⟩ := by
          conv_lhs => rw [hfk]
          rw [buildNode_eq _ _ _ k ek h2]
        have hbord : d.branch.order = (buildEntries (p0 :: rest)).length - 1 - k := by
          rw [hdk, hb]
        have hbname : d.branch.name = ek.pl.name := by
          rw [hdk, hb]
        have hbdepth : d.branch.depth = ek.pl.depth := by
          rw [hdk, hb]
        have hbcur : d.branch.isCurrent = ek.pl.isCurrent := by
          rw [hdk, hb]
        have hbann : d.branch.annot = ek.pl.annot := by
          rw [hdk, hb]
        have hprelen : (parsedLinesPre input).length = (buildEntries (p0 :: rest)).length := by
          have h3 : (parsedLinesPre input).reverse = p0 :: rest := hrev
          have h4 := congrArg List.length h3
          simp at h4
          omega
        have hrevget : (parsedLinesPre input)[(buildEntries (p0 :: rest)).length - 1 - k]?
            = some ek.pl := by
          have h5 : (parsedLinesPre input).reverse[k]? = some ek.pl := by
            rw [show (parsedLinesPre input).reverse = parsedLinesRev input from rfl, hrev,
              ← buildEntries_pl p0 rest]
            rw [List.getElem?_map]
            rw [← List.get?_eq_getElem?, h2]
            rfl
          rw [List.getElem?_reverse (by omega)] at h5
          rw [← h5]
          congr 1
          omega
        rw [hbord, hbname, hbdepth, hbcur, hbann]
        exact hrevget

end Grit

namespace Grit

theorem buildNode_canon (es : List CEntry) (k : Nat) (ek : CEntry)
    (hk : k < es.length) (h2 : es.get? k = some ek) :
    buildNode es es.length (es.length - k) k
      = ⟨ek.pl.name, ek.pl.isCurrent, ek.pl.annot, ek.pl.depth, es.length - 1 - k,
         (childIdxs es k).map
           (fun j => buildNode es es.length (es.length - k - 1) j)⟩ := by
  have hfk : es.length - k = (es.length - k - 1) + 1 := by omega
  conv_lhs => rw [hfk]
  rw [buildNode_eq _ _ _ k ek h2]

theorem buildNode_depth (es : List CEntry) (f j : Nat) (ej : CEntry)
    (hf : 0 < f) (h2 : es.get? j = some ej) :
    (buildNode es es.length f j).depth = ej.pl.depth := by
  match f, hf with
  | f + 1, _ => rw [buildNode_eq _ _ _ j ej h2]

theorem depthAt_eq_some (es : List CEntry) (j : Nat) (ej : CEntry)
    (h : es.get? j = some ej) : depthAt es j = some ej.pl.depth := by
  unfold depthAt
  rw [h]
  rfl

/-- C4 (amended; depth recording modelled from the spec, see `Branch`): when
the trunk line (the first post-reversal parsed line) carries depth 0, every
root of the parsed forest has depth 0, and every child's recorded depth is
either equal to its parent's depth (a same-indent stack continuation, or a
depth-0 branch attached under the trunk) or exactly one greater.  The
original claim — always exactly one greater — fails; see the
counterexample. -/
theorem claim_C4_depth_invariant (input : List Char)
    (htrunk : ∀ p0 rest, parsedLinesRev input = p0 :: rest → p0.depth = 0) :
    (∀ b ∈ ParseLogShort input, b.depth = 0)
    ∧ (∀ d ∈ collectAll (ParseLogShort input), ∀ c ∈ d.branch.children,
        c.depth = d.branch.depth ∨ c.depth = d.branch.depth + 1) := by
  rcases hrev : parsedLinesRev input with _ | ⟨p0, rest⟩
  · rw [ParseLogShort_nil input hrev]
    exact ⟨by simp, by simp [collectAll]⟩
  · rw [ParseLogShort_cons input p0 rest hrev]
    have hdep0 : p0.depth = 0 := htrunk p0 rest hrev
    have hinv := buildEntries_inv p0 rest
    have hplt := hinv.plt
    have hlen : (buildEntries (p0 :: rest)).length = rest.length + 1 :=
      buildEntries_length p0 rest
    have hnpos : 0 < (buildEntries (p0 :: rest)).length := by omega
    have he0 : ∃ e0, (buildEntries (p0 :: rest)).get? 0 = some e0 ∧ e0.pl = p0 := by
      have h3 := buildEntries_pl p0 rest
      rcases h5 : (buildEntries (p0 :: rest)).get? 0 with _ | e0
      · rw [List.get?_eq_none] at h5
        omega
      · refine ⟨e0, rfl, ?_⟩
        have h4 : (List.map CEntry.pl (buildEntries (p0 :: rest))).get? 0
            = some e0.pl := by
          rw [List.get?_map, h5]
          rfl
        rw [h3] at h4
        have h6 : p0 = e0.pl := by simpa using h4
        exact h6.symm
    rcases he0 with ⟨e0, he0get, he0pl⟩
    constructor
    · intro b hb
      rcases List.mem_singleton.mp hb with rfl
      have hcan := buildNode_canon (buildEntries (p0 :: rest)) 0 e0 hnpos he0get
      simp only [Nat.sub_zero] at hcan
      rw [hcan]
      simp [he0pl, hdep0]
    · intro d hd c hc
      rcases collect_mem (buildEntries (p0 :: rest)) hplt
          (buildEntries (p0 :: rest)).length 0 hnpos (by omega) d hd with ⟨k, hk, hdk⟩
      rcases h2 : (buildEntries (p0 :: rest)).get? k with _ | ek
      · rw [List.get?_eq_none] at h2
        omega
      · have hcan := buildNode_canon (buildEntries (p0 :: rest)) k ek hk h2
        have hchild : d.branch.children
            = (childIdxs (buildEntries (p0 :: rest)) k).map
                (fun j => buildNode (buildEntries (p0 :: rest))
                  (buildEntries (p0 :: rest)).length
                  ((buildEntries (p0 :: rest)).length - k - 1) j) := by
          rw [hdk, hcan]
        have hddepth : d.branch.depth = ek.pl.depth := by
          rw [hdk, hcan]
        rw [hchild] at hc
        rcases List.mem_map.mp hc with ⟨j, hj, hcj⟩
        rcases childIdxs_gt (buildEntries (p0 :: rest)) hplt k j hj with ⟨hkj, hjlen⟩
        rcases h3 : (buildEntries (p0 :: rest)).get? j with _ | ej
        · rw [List.get?_eq_none] at h3
          omega
        · have hcdepth : c.depth = ej.pl.depth := by
            rw [← hcj]
            exact buildNode_depth (buildEntries (p0 :: rest)) _ j ej (by omega) h3
          have hpj : parentOf (buildEntries (p0 :: rest)) j = some k :=
            ((mem_childIdxs _ k j).mp hj).2
          have hdj := depthAt_eq_some (buildEntries (p0 :: rest)) j ej h3
          have hdkk := depthAt_eq_some (buildEntries (p0 :: rest)) k ek h2
          rcases hinv.drel j k hpj with h4 | ⟨dd, h4, h5⟩ | ⟨h4, h5⟩
          · rw [hdj, hdkk] at h4
            simp at h4
            rw [hcdepth, hddepth, h4]
            exact Or.inl rfl
          · rw [hdkk] at h4
            rw [hdj] at h5
            simp at h4 h5
            rw [hcdepth, hddepth, h5, h4]
            exact Or.inr rfl
          · rw [hdj] at h4
            simp at h4
            subst h5
            have : ek = e0 := by
              rw [h2] at he0get
              exact Option.some.inj he0get
            rw [hcdepth, hddepth, h4, this, he0pl, hdep0]
            exact Or.inl rfl

end Grit

namespace Grit

/-- C4, counterexample: on the repository's own three-line linear-chain
snapshot, `feature-top` (parsed at depth 1) is the child of `feature-base`
(also depth 1), so a non-root node's depth is not one greater than its
parent's. -/
theorem claim_C4_counterexample :
    ¬ ((∀ b ∈ ParseLogShort chainInput, b.depth = 0)
      ∧ (∀ d ∈ collectAll (ParseLogShort chainInput), ∀ c ∈ d.branch.children,
          c.depth = d.branch.depth + 1)) := by
  intro h
  have hforest : ParseLogShort chainInput = [mainB] := chainForest_eq
  have hcollect : collectAll (ParseLogShort chainInput)
      = [⟨mainB, 0⟩, ⟨baseB, 1⟩, ⟨topB, 1⟩] := by
    rw [hforest]
    rw [show mainB = ⟨("main").data, false, [], 0, 2, [baseB]⟩ from rfl]
    rw [collectAll, collectAll, collectAll]
    rw [show baseB = ⟨("feature-base").data, false, [], 1, 1, [topB]⟩ from rfl]
    rw [collectAll, collectAll, collectAll]
    rw [show topB = ⟨("feature-top").data, true, [], 1, 0, []⟩ from rfl]
    rw [collectAll]
    rfl
  have hmem : (⟨baseB, 1⟩ : DisplayEntry) ∈ collectAll (ParseLogShort chainInput) := by
    rw [hcollect]
    exact List.mem_cons_of_mem _ (List.mem_cons_self _ _)
  have htop : topB ∈ (⟨baseB, 1⟩ : DisplayEntry).branch.children := by
    rw [show (⟨baseB, 1⟩ : DisplayEntry).branch.children = [topB] from rfl]
    exact List.mem_cons_self _ _
  have hbad := h.2 _ hmem topB htop
  rw [show topB.depth = 1 from rfl, show (⟨baseB, 1⟩ : DisplayEntry).branch.depth = 1 from rfl]
    at hbad
  omega

theorem claim_C4_witness :
    (∀ b ∈ ParseLogShort chainInput, b.depth = 0)
    ∧ (∀ d ∈ collectAll (ParseLogShort chainInput), ∀ c ∈ d.branch.children,
        c.depth = d.branch.depth ∨ c.depth = d.branch.depth + 1) := by
  apply claim_C4_depth_invariant chainInput
  intro p0 rest h
  rw [show parsedLinesRev chainInput
      = (⟨("main").data, 0, false, []⟩ : ParsedLine)
        :: [(⟨("feature-base").data, 1, false, []⟩ : ParsedLine),
            (⟨("feature-top").data, 1, true, []⟩ : ParsedLine)] from rfl] at h
  cases h
  rfl

end Grit
